import Mathlib

/-!
Verification of the blockchain core of the home-server repository.

The Go packages `transaction`, `chain`, `wallet` and `node` are shallowly
embedded below.  Conventions of the embedding:

* `float64` amounts and balances are modelled by rational numbers, so the
  ordering and bookkeeping arguments are exact;
* `time.Time` values are modelled by their RFC3339Nano-formatted string,
  which is the only form in which the code ever consumes a timestamp
  (hash input, signing input, JSON);
* `[]byte` is modelled by `List Nat`;
* Go maps with zero-default reads (`balances`) are modelled as total
  functions `String → Rat`, maps with an existence check (`publicKeys`)
  as `String → Option Nat`;
* SHA-256 is modelled by a collision-free executable digest
  (`sha256hex`), and ECDSA-P256 by an ideal signature scheme in which a
  signature determines, and is determined by, the signing key and the
  signed bytes; the block hash is instead kept as an explicit function
  parameter `H` so that theorems quantify over every hash function
  (the real SHA-256 hex digest being one instance);
* fallible Go functions return `Except`, functions that mutate their
  receiver return the new state, a Go `panic` is an explicit error value,
  and the unbounded proof-of-work loop takes a fuel argument whose
  exhaustion models nontermination.
-/

/-- Go struct `Transaction` (pkg/transaction).  `ID`, `From`, `To` are
strings, `Amount` a rational standing for the float64, `Timestamp` the
RFC3339Nano rendering of the Go time, `Signature` the byte slice. -/
structure Transaction where
  ID : String
  From : String
  To : String
  Amount : Rat
  Timestamp : String
  Signature : List Nat
deriving DecidableEq

/-- The error values of the embedded code, one constructor per distinct
Go error return.  `miningTimeout` is the model artifact for fuel
exhaustion of the proof-of-work loop (the Go loop would simply not
return). -/
inductive ChainErr where
  | fromRequired
  | toRequired
  | amountNotPositive
  | mustBeSigned
  | mustHaveID
  | pubKeyNotRegistered (addr : String)
  | invalidSignature (id : String)
  | insufficientBalance (addr : String) (has tried : Rat)
  | blockValidation
  | miningTimeout
deriving DecidableEq

/-- Left-pad the decimal rendering of `n` with zeros to 6 digits: the
fractional part of Go `%f` output. -/
def padSix (n : Nat) : String :=
  String.mk (List.replicate (6 - (toString n).length) '0') ++ toString n

/-- Go `fmt.Sprintf` `%f` rendering of a float64 amount: a decimal with
exactly six digits after the point (the fractional part rounded). -/
def fmtAmount (q : Rat) : String :=
  let n : Int := round (q * 1000000)
  let m : Nat := n.natAbs
  (if n < 0 then "-" else "") ++ toString (m / 1000000) ++ "." ++ padSix (m % 1000000)

/-- Injective encoding of a string into a natural number, used by the
ideal models of the digests. -/
def encodeStr (s : String) : Nat :=
  Encodable.encode (s.data.map Char.toNat)

/-- Collision-free executable model of `hex(sha256(s))`: Go
`sha256.Sum256` + `hex.EncodeToString` on a string input, idealized as
an injective string transformation.  Only determinism, injectivity and
nonemptiness of the digest are ever used by the code or the claims. -/
def sha256hex (s : String) : String :=
  "h" ++ s

/-- Go `transaction.New`: an unsigned transaction; the caller passes the
`time.Now()` value. -/
def Transaction.New (fromAddr toAddr : String) (amount : Rat) (ts : String) : Transaction :=
  { ID := "", From := fromAddr, To := toAddr, Amount := amount, Timestamp := ts, Signature := [] }

/-- Go `Transaction.DataToSign` (also the `Hash` preimage):
`fmt.Sprintf` of from, to, `%f` amount and RFC3339Nano timestamp,
concatenated with no separator. -/
def Transaction.DataToSign (tx : Transaction) : String :=
  tx.From ++ tx.To ++ fmtAmount tx.Amount ++ tx.Timestamp

/-- Go `Transaction.Hash`: hex SHA-256 of the same rendering that is
signed. -/
def Transaction.Hash (tx : Transaction) : String :=
  sha256hex tx.DataToSign

/-- Ideal model of the ECDSA-P256 signature bytes of `ecdsa.Sign`
followed by the `r || s` 32+32 zero-padding: a 64-entry byte list that
determines the key and the signed bytes.  The keypair is one natural
number serving as both halves, since no verified property involves
secrecy. -/
def ecdsaSigBytes (key : Nat) (data : String) : List Nat :=
  key :: encodeStr data :: List.replicate 62 0

/-- Ideal model of `ecdsa.Verify` on the padded signature bytes. -/
def ecdsaVerifyBytes (pub : Nat) (data : String) (sig : List Nat) : Bool :=
  sig == ecdsaSigBytes pub data

/-- Go `Transaction.Sign`: sets the 64-byte signature, then the ID from
`Hash` (which does not read the signature). -/
def Transaction.Sign (tx : Transaction) (priv : Nat) : Transaction :=
  let signed : Transaction := { tx with Signature := ecdsaSigBytes priv tx.DataToSign }
  { signed with ID := signed.Hash }

/-- Go `Transaction.Verify`: false unless the signature is exactly 64
bytes, else ECDSA verification of the digest of `DataToSign`. -/
def Transaction.Verify (tx : Transaction) (pub : Nat) : Bool :=
  if tx.Signature.length ≠ 64 then false
  else ecdsaVerifyBytes pub tx.DataToSign tx.Signature

/-- Go `Transaction.IsValid`: the shape checks, in source order. -/
def Transaction.IsValid (tx : Transaction) : Except ChainErr Unit :=
  if tx.From = "" then .error .fromRequired
  else if tx.To = "" then .error .toRequired
  else if tx.Amount ≤ 0 then .error .amountNotPositive
  else if tx.Signature.length = 0 then .error .mustBeSigned
  else if tx.ID = "" then .error .mustHaveID
  else .ok ()

/-- Go `Transaction.IsCoinbase`. -/
def Transaction.IsCoinbase (tx : Transaction) : Bool :=
  tx.From == "COINBASE"

/-- Exact characterization of the shape checks of
`Transaction.IsValid`. -/
lemma txIsValid_ok_iff (tx : Transaction) :
    tx.IsValid = .ok () ↔
      tx.From ≠ "" ∧ tx.To ≠ "" ∧ 0 < tx.Amount ∧ tx.Signature ≠ [] ∧ tx.ID ≠ "" := by
  unfold Transaction.IsValid
  split_ifs with h1 h2 h3 h4 h5 <;>
    simp_all [not_le, List.length_eq_zero]

/-- Claim C2 (amended): `Transaction.IsValid` succeeds iff from ≠ "",
to ≠ "", amount > 0, the signature is nonempty (any positive length, not
necessarily 64), and id ≠ ""; there is no special treatment of coinbase
transactions, so a coinbase transaction with an empty signature fails
shape validation. -/
theorem c2_isValidShape_iff (tx : Transaction) :
    tx.IsValid = .ok () ↔
      tx.From ≠ "" ∧ tx.To ≠ "" ∧ 0 < tx.Amount ∧ tx.Signature ≠ [] ∧ tx.ID ≠ "" :=
  txIsValid_ok_iff tx

/-- Claim C2, counterexample to the claim as stated: a coinbase
transaction with empty signature, nonempty id and positive amount is
rejected by shape validation (the claim says it passes), while a
transaction whose signature has length 1 — not 64 — is accepted (the
claim requires length exactly 64). -/
theorem c2_counterexample :
    Transaction.IsValid { ID := "i", From := "COINBASE", To := "m", Amount := 5,
                          Timestamp := "t", Signature := [] } = .error .mustBeSigned ∧
    Transaction.IsValid { ID := "i", From := "a", To := "b", Amount := 5,
                          Timestamp := "t", Signature := [7] } = .ok () := by
  constructor <;> rfl

/-- The preimage of a block hash: every field `Block.CalculateHash` reads
(all of them except the stored `Hash`).  Keeping the hash function a
parameter `H : HashInput → String` lets every theorem quantify over all
hash functions, the hex SHA-256 digest being one of them. -/
structure HashInput where
  index : Nat
  timestamp : String
  transactions : List Transaction
  previousHash : String
  nonce : Nat
deriving DecidableEq

/-- Modelled from the spec: the transaction-carrying `Block` of §3/§4.2
(the block package in the repository snapshot only contains the earlier
string-`Data` variant).  Fields as in the spec and the chain package
usage: index, timestamp, ordered transaction list, previous hash, hash,
nonce. -/
structure Block where
  Index : Nat
  Timestamp : String
  Transactions : List Transaction
  PreviousHash : String
  Hash : String
  Nonce : Nat
deriving DecidableEq

/-- Modelled from the spec: `block.New` — hash empty, nonce zero, the
timestamp passed in for `time.Now()`. -/
def Block.New (index : Nat) (ts : String) (txs : List Transaction) (previousHash : String) : Block :=
  { Index := index, Timestamp := ts, Transactions := txs, PreviousHash := previousHash,
    Hash := "", Nonce := 0 }

/-- Modelled from the spec: `block.CalculateHash` — the digest `H` of
every field but the stored hash. -/
def Block.CalculateHash (H : HashInput → String) (b : Block) : String :=
  H { index := b.Index, timestamp := b.Timestamp, transactions := b.Transactions,
      previousHash := b.PreviousHash, nonce := b.Nonce }

/-- The difficulty target: `d` ASCII zeros. -/
def powTarget (d : Nat) : List Char :=
  List.replicate d '0'

/-- Go `hash[:d] == target`: the first `d` characters of `s` are zeros.
(The Go byte-slice comparison, stated on the character list; the hashes
compared are ASCII.) -/
def powPrefixOK (s : String) (d : Nat) : Bool :=
  s.data.take d == powTarget d

/-- Modelled from the spec: `block.Mine` — recompute the hash, stop when
it meets the difficulty target, else bump the nonce and retry.  The Go
loop is unbounded; the `fuel` argument models nontermination as `none`. -/
def Block.MineLoop (H : HashInput → String) (difficulty : Nat) : Block → Nat → Option Block
  | _, 0 => none
  | b, fuel + 1 =>
    let h := Block.CalculateHash H b
    if powPrefixOK h difficulty then some { b with Hash := h }
    else Block.MineLoop H difficulty { b with Nonce := b.Nonce + 1 } fuel

/-- Modelled from the spec: `block.IsValid` — the stored hash matches a
recomputation. -/
def Block.IsValidB (H : HashInput → String) (b : Block) : Bool :=
  b.Hash == Block.CalculateHash H b

/-- Go struct `Chain` (pkg/chain): blocks, difficulty, mining reward, and
the unexported account state.  `balances` reads absent keys as 0 exactly
like the Go map; `publicKeys` is the address → key registry. -/
structure Chain where
  Blocks : List Block
  Difficulty : Nat
  MiningReward : Rat
  balances : String → Rat
  publicKeys : String → Option Nat

/-- Go `balances[addr] += amt` on the functional balance map. -/
def addFunds (bal : String → Rat) (addr : String) (amt : Rat) : String → Rat :=
  fun a => if a = addr then bal a + amt else bal a

/-- Go `balances[addr] -= amt` on the functional balance map. -/
def subFunds (bal : String → Rat) (addr : String) (amt : Rat) : String → Rat :=
  fun a => if a = addr then bal a - amt else bal a

/-- The body of Go `Chain.applyTransactions` for one transaction: debit
the sender unless coinbase, credit the recipient. -/
def applyTx (bal : String → Rat) (tx : Transaction) : String → Rat :=
  addFunds (if tx.IsCoinbase then bal else subFunds bal tx.From tx.Amount) tx.To tx.Amount

/-- Go `Chain.applyTransactions`: fold `applyTx` over the list in order. -/
def applyTxs (bal : String → Rat) (txs : List Transaction) : String → Rat :=
  txs.foldl applyTx bal

/-- Go `Chain.validateTransactions` loop, carrying the simulated balance
copy: shape check, coinbase skip, registry lookup, signature
verification, simulated-balance guard, simulated update — in source
order.  Returns the final simulated balances on success. -/
def validateLoop (pk : String → Option Nat) : (String → Rat) → List Transaction → Except ChainErr (String → Rat)
  | bal, [] => .ok bal
  | bal, tx :: rest =>
    match tx.IsValid with
    | .error e => .error e
    | .ok _ =>
      if tx.IsCoinbase then validateLoop pk bal rest
      else
        match pk tx.From with
        | none => .error (.pubKeyNotRegistered tx.From)
        | some k =>
          if ¬ tx.Verify k then .error (.invalidSignature tx.ID)
          else if bal tx.From < tx.Amount then
            .error (.insufficientBalance tx.From (bal tx.From) tx.Amount)
          else validateLoop pk (addFunds (subFunds bal tx.From tx.Amount) tx.To tx.Amount) rest

/-- Go `Chain.validateTransactions`: run the loop on a copy of the
current balances, discard the simulation result. -/
def Chain.validateTransactions (c : Chain) (txs : List Transaction) : Except ChainErr Unit :=
  match validateLoop c.publicKeys c.balances txs with
  | .error e => .error e
  | .ok _ => .ok ()

/-- Go `Chain.validateNewBlock` as a boolean: index increments, links to
the previous hash, stored hash recomputes, and proof-of-work prefix. -/
def Chain.validateNewBlockB (H : HashInput → String) (difficulty : Nat) (newB prevB : Block) : Bool :=
  (newB.Index == prevB.Index + 1) &&
  (newB.PreviousHash == prevB.Hash) &&
  Block.IsValidB H newB &&
  powPrefixOK newB.Hash difficulty

/-- Go `Chain.GetBalance`. -/
def Chain.GetBalance (c : Chain) (address : String) : Rat :=
  c.balances address

/-- Go `Chain.RegisterPublicKey`. -/
def Chain.RegisterPublicKey (c : Chain) (address : String) (pk : Nat) : Chain :=
  { c with publicKeys := fun a => if a = address then some pk else c.publicKeys a }

/-- Go `Chain.GetLatestBlock` (total here; every reachable chain has a
genesis block, so the default is never read on reachable states). -/
def Chain.GetLatestBlock (c : Chain) : Block :=
  c.Blocks.getLastD (Block.New 0 "" [] "")

/-- Go `Chain.Length`. -/
def Chain.Length (c : Chain) : Nat :=
  c.Blocks.length

/-- The coinbase transaction `Chain.AddBlock` constructs: from
"COINBASE" to the miner, amount the mining reward, signature empty, id
set from `Hash`. -/
def coinbaseTx (minerAddress : String) (reward : Rat) (ts : String) : Transaction :=
  let cb0 := Transaction.New "COINBASE" minerAddress reward ts
  { cb0 with ID := cb0.Hash }

/-- Go `Chain.AddBlock`: validate the submitted list, prepend a coinbase
paying the miner, build and mine the next block, validate it against the
tail, then append and apply.  The pair returned is (error result, state
after the call): every error path leaves the chain component untouched,
exactly as the Go method returns before mutating its receiver.  `cbTs`
and `blockTs` stand for the two `time.Now()` reads, `fuel` bounds the
mining loop. -/
def Chain.AddBlock (H : HashInput → String) (c : Chain) (txs : List Transaction)
    (minerAddress : String) (cbTs blockTs : String) (fuel : Nat) :
    Except ChainErr Unit × Chain :=
  match Chain.validateTransactions c txs with
  | .error e => (.error e, c)
  | .ok _ =>
    let allTxs := coinbaseTx minerAddress c.MiningReward cbTs :: txs
    let prevBlock := c.GetLatestBlock
    match Block.MineLoop H c.Difficulty (Block.New (prevBlock.Index + 1) blockTs allTxs prevBlock.Hash) fuel with
    | none => (.error .miningTimeout, c)
    | some newBlock =>
      if Chain.validateNewBlockB H c.Difficulty newBlock prevBlock then
        (.ok (), { c with Blocks := c.Blocks ++ [newBlock],
                          balances := applyTxs c.balances allTxs })
      else (.error .blockValidation, c)

/-- Go `chain.New`: empty maps, then a mined genesis block (index 0,
no transactions, previous hash "0").  `none` when the genesis mining
fuel runs out. -/
def Chain.New (H : HashInput → String) (difficulty : Nat) (miningReward : Rat)
    (genesisTs : String) (fuel : Nat) : Option Chain :=
  (Block.MineLoop H difficulty (Block.New 0 genesisTs [] "0") fuel).map fun g =>
    { Blocks := [g], Difficulty := difficulty, MiningReward := miningReward,
      balances := fun _ => 0, publicKeys := fun _ => none }

/-- The transaction replay of Go `Chain.IsValid`, one block: coinbase
transactions are credited unguarded, every other transaction requires
the running balance of the sender to cover the amount. -/
def applyGuarded : (String → Rat) → List Transaction → Option (String → Rat)
  | bal, [] => some bal
  | bal, tx :: rest =>
    if tx.IsCoinbase then applyGuarded (addFunds bal tx.To tx.Amount) rest
    else if bal tx.From < tx.Amount then none
    else applyGuarded (addFunds (subFunds bal tx.From tx.Amount) tx.To tx.Amount) rest

/-- The block loop of Go `Chain.IsValid`: validate each block against
its predecessor and replay its transactions with the balance guard,
starting from empty balances.  Returns the final replayed balances when
every check passes. -/
def replayBlocks (H : HashInput → String) (difficulty : Nat) : Block → (String → Rat) → List Block → Option (String → Rat)
  | _, bal, [] => some bal
  | prev, bal, b :: rest =>
    if Chain.validateNewBlockB H difficulty b prev then
      match applyGuarded bal b.Transactions with
      | none => none
      | some bal2 => replayBlocks H difficulty b bal2 rest
    else none

/-- Go `Chain.IsValid`: the replay from block 1 onward succeeds. -/
def Chain.IsValid (H : HashInput → String) (c : Chain) : Bool :=
  match c.Blocks with
  | [] => true
  | g :: rest => (replayBlocks H c.Difficulty g (fun _ => 0) rest).isSome

/-- A mutation step of the chain API: registering a key or an `AddBlock`
call (whose failure leaves no trace, as the returned state of a failing
`AddBlock` is the unchanged chain). -/
inductive ChainOp where
  | register (address : String) (pk : Nat)
  | addBlock (txs : List Transaction) (minerAddress : String) (cbTs blockTs : String) (fuel : Nat)

/-- Apply one `ChainOp`. -/
def Chain.applyOp (H : HashInput → String) (c : Chain) : ChainOp → Chain
  | .register a k => c.RegisterPublicKey a k
  | .addBlock txs m t1 t2 fuel => (Chain.AddBlock H c txs m t1 t2 fuel).2

/-- Run a sequence of `ChainOp`s. -/
def Chain.runOps (H : HashInput → String) (c : Chain) (ops : List ChainOp) : Chain :=
  ops.foldl (Chain.applyOp H) c

/-- The chains reachable through the public API from `chain.New`:
some genesis timestamp and fuel make `New` succeed, followed by any
sequence of `RegisterPublicKey` and `AddBlock` calls. -/
def Chain.Reachable (H : HashInput → String) (difficulty : Nat) (miningReward : Rat) (c : Chain) : Prop :=
  ∃ gTs gFuel c0 ops, Chain.New H difficulty miningReward gTs gFuel = some c0 ∧
    c = Chain.runOps H c0 ops

/-- A constant hash function whose output is 64 zeros: the concrete
instance of the hash parameter used by the closed instances below (any
difficulty up to 64 is met immediately). -/
def constHash : HashInput → String := fun _ => String.mk (List.replicate 64 '0')

/-- Inversion of a successful `Chain.AddBlock`: the simulation loop
accepted the submitted list, mining returned a block, the new block
passed validation against the tail, and the new state appends that block
and applies coinbase-plus-list to the balances. -/
lemma addBlock_ok_elim (H : HashInput → String) (c : Chain) (txs : List Transaction)
    (m t1 t2 : String) (fuel : Nat) (c2 : Chain)
    (h : Chain.AddBlock H c txs m t1 t2 fuel = (.ok (), c2)) :
    ∃ balSim newBlock,
      validateLoop c.publicKeys c.balances txs = .ok balSim ∧
      Block.MineLoop H c.Difficulty
        (Block.New (c.GetLatestBlock.Index + 1) t2 (coinbaseTx m c.MiningReward t1 :: txs)
          c.GetLatestBlock.Hash) fuel = some newBlock ∧
      Chain.validateNewBlockB H c.Difficulty newBlock c.GetLatestBlock = true ∧
      c2 = { c with Blocks := c.Blocks ++ [newBlock],
                    balances := applyTxs c.balances (coinbaseTx m c.MiningReward t1 :: txs) } := by
  unfold Chain.AddBlock at h
  split at h
  next e heq => simp at h
  next u heq =>
    have hloop : ∃ balSim, validateLoop c.publicKeys c.balances txs = .ok balSim := by
      unfold Chain.validateTransactions at heq
      split at heq
      · simp at heq
      · next b hb => exact ⟨b, hb⟩
    obtain ⟨balSim, hloop⟩ := hloop
    simp only [] at h
    split at h
    next hm => simp at h
    next nb hm =>
      split at h
      next hv =>
        obtain ⟨-, rfl⟩ := Prod.mk.injEq .. ▸ h
        exact ⟨balSim, nb, hloop, hm, hv, rfl⟩
      next hv => simp at h

/-- Claim C1: a transaction with from "COINBASE", nonempty signature and
id, positive amount and nonempty recipient placed in the user-submitted
list passes `Chain.validateTransactions` on every chain state — no
signature verification, no registry lookup, no balance check — and a
successful `AddBlock` on the singleton list credits the recipient with
the full amount (on top of the miner reward) while debiting nobody. -/
theorem c1_user_coinbase_mints (H : HashInput → String) (c : Chain) (tx : Transaction)
    (m t1 t2 : String) (fuel : Nat)
    (hFrom : tx.From = "COINBASE") (hTo : tx.To ≠ "") (hAmt : 0 < tx.Amount)
    (hSig : tx.Signature ≠ []) (hID : tx.ID ≠ "") :
    Chain.validateTransactions c [tx] = .ok () ∧
    ∀ c2, Chain.AddBlock H c [tx] m t1 t2 fuel = (.ok (), c2) →
      ∀ a, c2.balances a =
        c.balances a + (if a = m then c.MiningReward else 0) +
          (if a = tx.To then tx.Amount else 0) := by
  have hshape : tx.IsValid = .ok () :=
    (txIsValid_ok_iff tx).2 ⟨by simp [hFrom], hTo, hAmt, hSig, hID⟩
  have hcb : tx.IsCoinbase = true := by
    simp [Transaction.IsCoinbase, hFrom]
  have hval : Chain.validateTransactions c [tx] = .ok () := by
    unfold Chain.validateTransactions
    simp [validateLoop, hshape, hcb]
  refine ⟨hval, ?_⟩
  intro c2 h a
  obtain ⟨balSim, nb, hloop, hmine, hnb, hc2⟩ := addBlock_ok_elim H c [tx] m t1 t2 fuel c2 h
  subst hc2
  have hcbTx : (coinbaseTx m c.MiningReward t1).IsCoinbase = true := by
    simp [coinbaseTx, Transaction.New, Transaction.IsCoinbase]
  show applyTxs c.balances (coinbaseTx m c.MiningReward t1 :: [tx]) a = _
  simp only [applyTxs, List.foldl, applyTx, hcbTx, hcb, if_true]
  simp only [coinbaseTx, Transaction.New, addFunds]
  split_ifs <;> simp_all

def w1chain : Chain :=
  { Blocks := [{ Index := 0, Timestamp := "g", Transactions := [], PreviousHash := "0",
                 Hash := String.mk (List.replicate 64 '0'), Nonce := 0 }],
    Difficulty := 1, MiningReward := 3, balances := fun _ => 0, publicKeys := fun _ => none }

def w1tx : Transaction :=
  { ID := "i", From := "COINBASE", To := "X", Amount := 7, Timestamp := "t", Signature := [1] }

/-- Instance of the C1 theorem at a concrete chain and transaction. -/
theorem c1_witness :
    Chain.validateTransactions w1chain [w1tx] = .ok () ∧
    ∀ c2, Chain.AddBlock constHash w1chain [w1tx] "M" "t1" "t2" 1 = (.ok (), c2) →
      ∀ a, c2.balances a =
        w1chain.balances a + (if a = "M" then w1chain.MiningReward else 0) +
          (if a = w1tx.To then w1tx.Amount else 0) :=
  c1_user_coinbase_mints constHash w1chain w1tx "M" "t1" "t2" 1 rfl
    (by decide) (by norm_num [w1tx]) (by decide) (by decide)

/-- Every error path of `Chain.AddBlock` returns the chain unchanged. -/
lemma addBlock_error_frame (H : HashInput → String) (c : Chain) (txs : List Transaction)
    (m t1 t2 : String) (fuel : Nat) (e : ChainErr) (c2 : Chain)
    (h : Chain.AddBlock H c txs m t1 t2 fuel = (.error e, c2)) :
    c2 = c := by
  unfold Chain.AddBlock at h
  split at h
  next e2 heq =>
    injection h with h1 h2
    exact h2.symm
  next u heq =>
    simp only [] at h
    split at h
    next hm =>
      injection h with h1 h2
      exact h2.symm
    next nb hm =>
      split at h
      next hv =>
        injection h with h1 h2
        exact absurd h1 (by simp)
      next hv =>
        injection h with h1 h2
        exact h2.symm

/-- Claim C7: whenever `Chain.AddBlock` returns an error — shape
failure, unregistered key, bad signature, insufficient balance, mining
timeout, or new-block validation failure — the returned chain state is
exactly the chain before the call (blocks, balances and key registry
untouched). -/
theorem c7_addBlock_error_frame (H : HashInput → String) (c : Chain) (txs : List Transaction)
    (m t1 t2 : String) (fuel : Nat) (e : ChainErr) (c2 : Chain)
    (h : Chain.AddBlock H c txs m t1 t2 fuel = (.error e, c2)) :
    c2 = c :=
  addBlock_error_frame H c txs m t1 t2 fuel e c2 h

def w7tx : Transaction :=
  { ID := "", From := "", To := "", Amount := 0, Timestamp := "", Signature := [] }

/-- Instance of the C7 theorem at a concrete failing call (empty from
address, so validation fails at the shape check). -/
theorem c7_witness :
    (Chain.AddBlock constHash w1chain [w7tx] "M" "t1" "t2" 1).2 = w1chain :=
  c7_addBlock_error_frame constHash w1chain [w7tx] "M" "t1" "t2" 1 .fromRequired
    ((Chain.AddBlock constHash w1chain [w7tx] "M" "t1" "t2" 1).2) (by rfl)

/-- Spec §4.4.1 as a pure simulation: walk the list in order over a copy
of the balances, skipping coinbase entries, failing on the first
transaction not covered by the running simulated balance of its sender,
else moving the funds in the simulation. -/
def simulateSpends : (String → Rat) → List Transaction → Option (String → Rat)
  | bal, [] => some bal
  | bal, tx :: rest =>
    if tx.IsCoinbase then simulateSpends bal rest
    else if bal tx.From < tx.Amount then none
    else simulateSpends (addFunds (subFunds bal tx.From tx.Amount) tx.To tx.Amount) rest

/-- The side conditions of the simulation: every entry passes the shape
check, and every non-coinbase entry has a registered key its signature
verifies against. -/
def txListOK (pk : String → Option Nat) (txs : List Transaction) : Prop :=
  ∀ tx ∈ txs, tx.IsValid = .ok () ∧
    (tx.IsCoinbase = false → ∃ k, pk tx.From = some k ∧ tx.Verify k = true)

lemma txListOK_cons (pk : String → Option Nat) (tx : Transaction) (rest : List Transaction)
    (h : txListOK pk (tx :: rest)) : txListOK pk rest :=
  fun t ht => h t (List.mem_cons_of_mem tx ht)

lemma validateLoop_ok_of_sim (pk : String → Option Nat) :
    ∀ (txs : List Transaction) (bal b2 : String → Rat),
      txListOK pk txs →
      simulateSpends bal txs = some b2 →
      validateLoop pk bal txs = .ok b2
  | [], bal, b2, _, hsim => by
    simp [simulateSpends] at hsim
    simp [validateLoop, hsim]
  | tx :: rest, bal, b2, hok, hsim => by
    obtain ⟨hshape, hsig⟩ := hok tx (List.mem_cons_self tx rest)
    have hrest := txListOK_cons pk tx rest hok
    by_cases hcb : tx.IsCoinbase
    · rw [simulateSpends, if_pos hcb] at hsim
      simp only [validateLoop, hshape, hcb, if_true]
      exact validateLoop_ok_of_sim pk rest bal b2 hrest hsim
    · obtain ⟨k, hk, hv⟩ := hsig (by simpa using hcb)
      by_cases hlt : bal tx.From < tx.Amount
      · rw [simulateSpends, if_neg hcb, if_pos hlt] at hsim
        exact absurd hsim (by simp)
      · rw [simulateSpends, if_neg hcb, if_neg hlt] at hsim
        simp only [validateLoop, hshape, hcb, if_false, hk, hv, not_true, if_neg hlt]
        simp only [Bool.false_eq_true, if_false]
        exact validateLoop_ok_of_sim pk rest _ b2 hrest hsim

lemma validateLoop_insufficient_of_sim_none (pk : String → Option Nat) :
    ∀ (txs : List Transaction) (bal : String → Rat),
      txListOK pk txs →
      simulateSpends bal txs = none →
      ∃ addr has tried, has < tried ∧
        validateLoop pk bal txs = .error (.insufficientBalance addr has tried)
  | [], bal, _, hsim => by
    simp [simulateSpends] at hsim
  | tx :: rest, bal, hok, hsim => by
    obtain ⟨hshape, hsig⟩ := hok tx (List.mem_cons_self tx rest)
    have hrest := txListOK_cons pk tx rest hok
    by_cases hcb : tx.IsCoinbase
    · rw [simulateSpends, if_pos hcb] at hsim
      obtain ⟨a2, h2, t2, hlt2, hloop⟩ :=
        validateLoop_insufficient_of_sim_none pk rest bal hrest hsim
      refine ⟨a2, h2, t2, hlt2, ?_⟩
      simp only [validateLoop, hshape, hcb, if_true]
      exact hloop
    · obtain ⟨k, hk, hv⟩ := hsig (by simpa using hcb)
      by_cases hlt : bal tx.From < tx.Amount
      · refine ⟨tx.From, bal tx.From, tx.Amount, hlt, ?_⟩
        simp only [validateLoop, hshape, hcb, if_false, hk, hv, not_true, if_pos hlt]
        simp only [Bool.false_eq_true, if_false]
      · rw [simulateSpends, if_neg hcb, if_neg hlt] at hsim
        obtain ⟨a2, h2, t2, hlt2, hloop⟩ :=
          validateLoop_insufficient_of_sim_none pk rest _ hrest hsim
        refine ⟨a2, h2, t2, hlt2, ?_⟩
        simp only [validateLoop, hshape, hcb, if_false, hk, hv, not_true, if_neg hlt]
        simp only [Bool.false_eq_true, if_false]
        exact hloop

/-- Claim C6: on a list whose entries all pass the shape check and (for
non-coinbase entries) signature verification against registered keys,
`Chain.validateTransactions` succeeds exactly when the in-order balance
simulation never overdraws a sender, and an overdrawing list — in
particular two covered-alone transactions from one sender whose sum
exceeds the balance — is rejected with an insufficient-balance error. -/
theorem c6_double_spend_guard (c : Chain) (txs : List Transaction)
    (hok : txListOK c.publicKeys txs) :
    (Chain.validateTransactions c txs = .ok () ↔
      (simulateSpends c.balances txs).isSome = true) ∧
    (simulateSpends c.balances txs = none →
      ∃ addr has tried, has < tried ∧
        Chain.validateTransactions c txs = .error (.insufficientBalance addr has tried)) := by
  constructor
  · constructor
    · intro hval
      cases hsim : simulateSpends c.balances txs with
      | some b2 => simp
      | none =>
        obtain ⟨a2, h2, t2, _, hloop⟩ :=
          validateLoop_insufficient_of_sim_none c.publicKeys txs c.balances hok hsim
        unfold Chain.validateTransactions at hval
        rw [hloop] at hval
        simp at hval
    · intro hsome
      cases hsim : simulateSpends c.balances txs with
      | none => rw [hsim] at hsome; simp at hsome
      | some b2 =>
        unfold Chain.validateTransactions
        rw [validateLoop_ok_of_sim c.publicKeys txs c.balances b2 hok hsim]
  · intro hsim
    obtain ⟨a2, h2, t2, hlt2, hloop⟩ :=
      validateLoop_insufficient_of_sim_none c.publicKeys txs c.balances hok hsim
    refine ⟨a2, h2, t2, hlt2, ?_⟩
    unfold Chain.validateTransactions
    rw [hloop]

/-- What `Block.MineLoop` guarantees about a mined block: the stored
hash is the recomputed hash, it meets the difficulty prefix, and every
field except hash and nonce is the one the loop started from. -/
lemma mineLoop_spec (H : HashInput → String) (d : Nat) :
    ∀ (b : Block) (fuel : Nat) (b2 : Block), Block.MineLoop H d b fuel = some b2 →
      b2.Hash = Block.CalculateHash H b2 ∧ powPrefixOK b2.Hash d = true ∧
      b2.Index = b.Index ∧ b2.Timestamp = b.Timestamp ∧
      b2.Transactions = b.Transactions ∧ b2.PreviousHash = b.PreviousHash
  | _, 0, b2 => by
    intro h
    simp [Block.MineLoop] at h
  | b, fuel + 1, b2 => by
    intro h
    rw [Block.MineLoop] at h
    split at h
    next hpow =>
      injection h with h2
      subst h2
      exact ⟨rfl, hpow, rfl, rfl, rfl, rfl⟩
    next hpow =>
      obtain ⟨h1, h2, h3, h4, h5, h6⟩ := mineLoop_spec H d { b with Nonce := b.Nonce + 1 } fuel b2 h
      exact ⟨h1, h2, h3, h4, h5, h6⟩

/-- The last block of a nonempty chain, by recursion. -/
def lastB : Block → List Block → Block
  | g, [] => g
  | _, b :: bs => lastB b bs

lemma getLastD_eq_lastB (dflt : Block) :
    ∀ (bs : List Block) (g : Block), (g :: bs).getLastD dflt = lastB g bs
  | [], _ => rfl
  | b :: bs, g => by
    rw [lastB]
    rw [← getLastD_eq_lastB dflt bs b]
    rfl

/-- Extending a successful replay by one block: the extended replay
checks the new block against the last replayed block and then applies
its transactions under the guard. -/
lemma replayBlocks_append (H : HashInput → String) (d : Nat) :
    ∀ (bs : List Block) (prev : Block) (bal balEnd : String → Rat) (b : Block),
      replayBlocks H d prev bal bs = some balEnd →
      replayBlocks H d prev bal (bs ++ [b]) =
        (if Chain.validateNewBlockB H d b (lastB prev bs) then
          applyGuarded balEnd b.Transactions
        else none)
  | [], prev, bal, balEnd, b => by
    intro h
    rw [replayBlocks] at h
    injection h with h2
    subst h2
    show replayBlocks H d prev bal [b] = _
    rw [replayBlocks, lastB]
    split
    · cases happ : applyGuarded bal b.Transactions with
      | none => simp [happ]
      | some bal2 => simp [happ, replayBlocks]
    · rfl
  | x :: bs, prev, bal, balEnd, b => by
    intro h
    rw [replayBlocks] at h
    split at h
    next hvx =>
      cases happ : applyGuarded bal x.Transactions with
      | none => rw [happ] at h; simp at h
      | some balMid =>
        rw [happ] at h
        simp only [] at h
        show replayBlocks H d prev bal (x :: (bs ++ [b])) = _
        rw [replayBlocks, if_pos hvx, happ]
        simp only []
        rw [replayBlocks_append H d bs x balMid balEnd b h, lastB]
    next hvx => simp at h

/-- The balance discipline of the whole chain, with no link checking:
replay every block in order, requiring each non-coinbase debit to be
covered at its point of application. -/
def applyGuardedBlocks : (String → Rat) → List Block → Option (String → Rat)
  | bal, [] => some bal
  | bal, b :: bs =>
    match applyGuarded bal b.Transactions with
    | none => none
    | some bal2 => applyGuardedBlocks bal2 bs

/-- A successful `Chain.IsValid` replay in particular satisfies the
balance discipline. -/
lemma applyGuardedBlocks_of_replay (H : HashInput → String) (d : Nat) :
    ∀ (bs : List Block) (prev : Block) (bal balEnd : String → Rat),
      replayBlocks H d prev bal bs = some balEnd →
      applyGuardedBlocks bal bs = some balEnd
  | [], _, bal, balEnd => by
    intro h
    rw [replayBlocks] at h
    exact h
  | b :: bs, prev, bal, balEnd => by
    intro h
    rw [replayBlocks] at h
    split at h
    next hv =>
      cases happ : applyGuarded bal b.Transactions with
      | none => rw [happ] at h; simp at h
      | some bal2 =>
        rw [happ] at h
        simp only [] at h
        rw [applyGuardedBlocks, happ]
        exact applyGuardedBlocks_of_replay H d bs b bal2 balEnd h
    next hv => simp at h

/-- Core domination argument: if the validation simulation (which never
credits coinbase entries) accepts a list starting from `bal1`, then the
guarded replay of the same list (which does credit coinbase entries)
succeeds from any pointwise-larger nonnegative `bal2`, its value is the
unguarded `applyTxs`, and the result is nonnegative everywhere. -/
lemma applyGuarded_of_validateLoop (pk : String → Option Nat) :
    ∀ (txs : List Transaction) (bal1 bal2 balEnd : String → Rat),
      validateLoop pk bal1 txs = .ok balEnd →
      (∀ a, bal1 a ≤ bal2 a) →
      (∀ a, 0 ≤ bal2 a) →
      applyGuarded bal2 txs = some (applyTxs bal2 txs) ∧
      (∀ a, 0 ≤ applyTxs bal2 txs a)
  | [], bal1, bal2, balEnd, hv, _, hnn => by
    exact ⟨rfl, hnn⟩
  | tx :: rest, bal1, bal2, balEnd, hv, hdom, hnn => by
    rw [validateLoop] at hv
    cases hsh : tx.IsValid with
    | error e => rw [hsh] at hv; exact absurd hv (by simp)
    | ok u =>
      rw [hsh] at hv
      simp only [] at hv
      cases u
      have hAmt : 0 < tx.Amount := ((txIsValid_ok_iff tx).1 hsh).2.2.1
      by_cases hcb : tx.IsCoinbase
      · rw [if_pos hcb] at hv
        have hdom2 : ∀ a, bal1 a ≤ addFunds bal2 tx.To tx.Amount a := by
          intro a
          unfold addFunds
          split_ifs with ha
          · linarith [hdom a]
          · exact hdom a
        have hnn2 : ∀ a, 0 ≤ addFunds bal2 tx.To tx.Amount a := by
          intro a
          unfold addFunds
          split_ifs with ha
          · linarith [hnn a]
          · exact hnn a
        obtain ⟨hga, hgn⟩ :=
          applyGuarded_of_validateLoop pk rest bal1 (addFunds bal2 tx.To tx.Amount) balEnd
            hv hdom2 hnn2
        refine ⟨?_, ?_⟩
        · rw [applyGuarded, if_pos hcb, hga]
          simp [applyTxs, applyTx, hcb]
        · intro a
          have := hgn a
          simpa [applyTxs, applyTx, hcb] using this
      · rw [if_neg hcb] at hv
        cases hk : pk tx.From with
        | none => rw [hk] at hv; exact absurd hv (by simp)
        | some k =>
          rw [hk] at hv
          simp only [] at hv
          by_cases hver : tx.Verify k
          · rw [if_neg (by simpa using hver)] at hv
            by_cases hlt : bal1 tx.From < tx.Amount
            · rw [if_pos hlt] at hv
              exact absurd hv (by simp)
            · rw [if_neg hlt] at hv
              push_neg at hlt
              have hle2 : tx.Amount ≤ bal2 tx.From := by
                linarith [hdom tx.From]
              have hlt2 : ¬ bal2 tx.From < tx.Amount := by
                push_neg
                exact hle2
              have hdom2 : ∀ a,
                  addFunds (subFunds bal1 tx.From tx.Amount) tx.To tx.Amount a ≤
                  addFunds (subFunds bal2 tx.From tx.Amount) tx.To tx.Amount a := by
                intro a
                unfold addFunds subFunds
                split_ifs with h1 h2 h2 <;> linarith [hdom a, hdom tx.From]
              have hnn2 : ∀ a, 0 ≤ addFunds (subFunds bal2 tx.From tx.Amount) tx.To tx.Amount a := by
                intro a
                unfold addFunds subFunds
                split_ifs with h1 h2 h2
                · linarith [hnn a]
                · linarith [hnn a, hAmt]
                · rw [h2]
                  linarith [hle2]
                · exact hnn a
              obtain ⟨hga, hgn⟩ :=
                applyGuarded_of_validateLoop pk rest _ _ balEnd hv hdom2 hnn2
              refine ⟨?_, ?_⟩
              · rw [applyGuarded, if_neg hcb, if_neg hlt2, hga]
                simp [applyTxs, applyTx, hcb]
              · intro a
                have := hgn a
                simpa [applyTxs, applyTx, hcb] using this
          · rw [if_pos (by simpa using hver)] at hv
            exact absurd hv (by simp)

/-- The inductive invariant of reachable chains: the blocks start with a
transaction-free genesis, the `IsValid` replay of the tail succeeds and
lands exactly on the stored balances, every balance is nonnegative, and
the mining reward is nonnegative. -/
structure ChainInv (H : HashInput → String) (c : Chain) : Prop where
  blocks_shape : ∃ g rest, c.Blocks = g :: rest ∧ g.Transactions = [] ∧
    replayBlocks H c.Difficulty g (fun _ => 0) rest = some c.balances
  nonneg : ∀ a, 0 ≤ c.balances a
  reward_nonneg : 0 ≤ c.MiningReward

lemma chainInv_new (H : HashInput → String) (d : Nat) (r : Rat) (gTs : String) (fuel : Nat)
    (c0 : Chain) (hr : 0 ≤ r) (h : Chain.New H d r gTs fuel = some c0) : ChainInv H c0 := by
  unfold Chain.New at h
  cases hm : Block.MineLoop H d (Block.New 0 gTs [] "0") fuel with
  | none => rw [hm] at h; exact absurd h (by simp)
  | some g =>
    rw [hm] at h
    simp only [Option.map_some'] at h
    injection h with h2
    subst h2
    obtain ⟨-, -, -, -, htx, -⟩ := mineLoop_spec H d (Block.New 0 gTs [] "0") fuel g hm
    exact { blocks_shape := ⟨g, [], rfl, htx, rfl⟩,
            nonneg := fun a => le_refl 0,
            reward_nonneg := hr }

lemma chainInv_register (H : HashInput → String) (c : Chain) (a : String) (k : Nat)
    (inv : ChainInv H c) : ChainInv H (c.RegisterPublicKey a k) :=
  { blocks_shape := inv.blocks_shape,
    nonneg := inv.nonneg,
    reward_nonneg := inv.reward_nonneg }

lemma chainInv_addBlock (H : HashInput → String) (c : Chain) (txs : List Transaction)
    (m t1 t2 : String) (fuel : Nat) (inv : ChainInv H c) :
    ChainInv H (Chain.AddBlock H c txs m t1 t2 fuel).2 := by
  cases hres : Chain.AddBlock H c txs m t1 t2 fuel with
  | mk r c2 =>
    cases r with
    | error e =>
      rw [addBlock_error_frame H c txs m t1 t2 fuel e c2 hres]
      exact inv
    | ok u =>
      cases u
      obtain ⟨balSim, nb, hloop, hmine, hnb, hc2⟩ := addBlock_ok_elim H c txs m t1 t2 fuel c2 hres
      obtain ⟨g, rest, hblocks, hgtx, hreplay⟩ := inv.blocks_shape
      have hlast : c.GetLatestBlock = lastB g rest := by
        unfold Chain.GetLatestBlock
        rw [hblocks, getLastD_eq_lastB]
      obtain ⟨-, -, -, -, hnbtx, -⟩ := mineLoop_spec H c.Difficulty _ fuel nb hmine
      have hcbdom : ∀ a, c.balances a ≤
          addFunds c.balances m c.MiningReward a := by
        intro a
        unfold addFunds
        split_ifs with ha
        · linarith [inv.reward_nonneg]
        · exact le_refl _
      have hcbnn : ∀ a, 0 ≤ addFunds c.balances m c.MiningReward a := by
        intro a
        unfold addFunds
        split_ifs with ha
        · linarith [inv.nonneg a, inv.reward_nonneg]
        · exact inv.nonneg a
      obtain ⟨hga, hgn⟩ :=
        applyGuarded_of_validateLoop c.publicKeys txs c.balances
          (addFunds c.balances m c.MiningReward) balSim hloop hcbdom hcbnn
      have hcbCoin : (coinbaseTx m c.MiningReward t1).IsCoinbase = true := rfl
      have happAll : applyGuarded c.balances (coinbaseTx m c.MiningReward t1 :: txs) =
          some (applyTxs c.balances (coinbaseTx m c.MiningReward t1 :: txs)) := by
        rw [applyGuarded, if_pos hcbCoin]
        exact hga
      have hreplay2 : replayBlocks H c.Difficulty g (fun _ => 0) (rest ++ [nb]) =
          some (applyTxs c.balances (coinbaseTx m c.MiningReward t1 :: txs)) := by
        rw [replayBlocks_append H c.Difficulty rest g (fun _ => 0) c.balances nb hreplay]
        rw [← hlast, if_pos hnb, hnbtx]
        exact happAll
      refine { blocks_shape := ?_, nonneg := ?_, reward_nonneg := ?_ }
      · refine ⟨g, rest ++ [nb], ?_, hgtx, ?_⟩
        · rw [hc2, hblocks]
          rfl
        · rw [hc2]
          exact hreplay2
      · intro a
        rw [hc2]
        exact hgn a
      · rw [hc2]
        exact inv.reward_nonneg

lemma chainInv_runOps (H : HashInput → String) :
    ∀ (ops : List ChainOp) (c : Chain), ChainInv H c → ChainInv H (Chain.runOps H c ops)
  | [], c, inv => inv
  | op :: ops, c, inv => by
    have hstep : ChainInv H (Chain.applyOp H c op) := by
      cases op with
      | register a k => exact chainInv_register H c a k inv
      | addBlock txs m t1 t2 fuel => exact chainInv_addBlock H c txs m t1 t2 fuel inv
    exact chainInv_runOps H ops (Chain.applyOp H c op) hstep

lemma chainInv_reachable (H : HashInput → String) (d : Nat) (r : Rat) (c : Chain)
    (hr : 0 ≤ r) (hreach : Chain.Reachable H d r c) : ChainInv H c := by
  obtain ⟨gTs, gFuel, c0, ops, hnew, hc⟩ := hreach
  subst hc
  exact chainInv_runOps H ops c0 (chainInv_new H d r gTs gFuel c0 hr hnew)

/-- Claim C4 (amended: the mining reward must be nonnegative): every
chain reachable from `chain.New` with difficulty `d` (positive and at
most the 64-character hash length) and reward `r ≥ 0` through any
sequence of `RegisterPublicKey` and `AddBlock` calls — failing calls
leaving no trace — satisfies `Chain.IsValid`. -/
theorem c4_reachable_isValid (H : HashInput → String) (d : Nat) (r : Rat) (c : Chain)
    (hd1 : 0 < d) (hd2 : d ≤ 64) (hr : 0 ≤ r)
    (hreach : Chain.Reachable H d r c) :
    Chain.IsValid H c = true := by
  obtain ⟨g, rest, hblocks, -, hreplay⟩ := (chainInv_reachable H d r c hr hreach).blocks_shape
  unfold Chain.IsValid
  rw [hblocks]
  simp only []
  rw [hreplay]
  rfl

/-- Claim C5 (amended: the mining reward must be nonnegative): on every
reachable chain the guarded in-order replay of every block succeeds —
each non-coinbase transaction is covered by its sender's running balance
at its point of application — it reproduces the stored balances, and
`GetBalance` is nonnegative everywhere. -/
theorem c5_balances_invariant (H : HashInput → String) (d : Nat) (r : Rat) (c : Chain)
    (hr : 0 ≤ r) (hreach : Chain.Reachable H d r c) :
    applyGuardedBlocks (fun _ => 0) c.Blocks = some c.balances ∧
    ∀ a, 0 ≤ Chain.GetBalance c a := by
  have inv := chainInv_reachable H d r c hr hreach
  obtain ⟨g, rest, hblocks, hgtx, hreplay⟩ := inv.blocks_shape
  constructor
  · rw [hblocks, applyGuardedBlocks]
    have hg : applyGuarded (fun _ => 0) g.Transactions = some (fun _ => 0) := by
      rw [hgtx]
      rfl
    rw [hg]
    exact applyGuardedBlocks_of_replay H c.Difficulty rest g _ _ hreplay
  · exact fun a => inv.nonneg a

def cexJunk : Chain :=
  { Blocks := [], Difficulty := 0, MiningReward := 0,
    balances := fun _ => 0, publicKeys := fun _ => none }

/-- `chain.New` with difficulty 1 and mining reward -5, under the
constant all-zeros hash function. -/
def cexC0 : Chain := (Chain.New constHash 1 (-5) "g" 1).getD cexJunk

/-- A run that mints 10 to address M through a user-submitted coinbase,
then has M (balance 10) send 8 to B in a block that M itself mines:
validation sees balance 10 ≥ 8, but the negative reward drops M to 5
before the debit in the `IsValid` replay. -/
def c4ops : List ChainOp :=
  [ .register "M" 5,
    .addBlock [{ ID := "i", From := "COINBASE", To := "M", Amount := 10, Timestamp := "c",
                 Signature := [1] }] "m" "c1" "b1" 1,
    .addBlock [(Transaction.New "M" "B" 8 "u").Sign 5] "M" "c2" "b2" 1 ]

set_option maxRecDepth 200000

unseal Rat.add Rat.sub Rat.mul Rat.inv Rat.ofScientific

/-- Claim C4, counterexample to the claim as stated (which quantifies
over every reward): with reward -5, a three-step `AddBlock` sequence in
which every call succeeds (the final chain has 3 blocks beyond nothing —
length 3) produces a chain on which `IsValid` is false. -/
theorem c4_counterexample :
    Chain.New constHash 1 (-5) "g" 1 = some cexC0 ∧
    (Chain.runOps constHash cexC0 c4ops).Length = 3 ∧
    Chain.IsValid constHash (Chain.runOps constHash cexC0 c4ops) = false :=
  ⟨by rfl, by rfl, by rfl⟩

/-- Instance of the C4 theorem: a chain reached by one empty `AddBlock`
from `New` with difficulty 1, reward 2, under the constant zero hash. -/
def w4c0 : Chain := (Chain.New constHash 1 2 "g" 1).getD cexJunk

def w4ops : List ChainOp := [ChainOp.addBlock [] "m" "c1" "b1" 1]

/-- Instance of the C4 theorem at a concrete reachable chain. -/
theorem c4_witness :
    Chain.IsValid constHash (Chain.runOps constHash w4c0 w4ops) = true :=
  c4_reachable_isValid constHash 1 2 (Chain.runOps constHash w4c0 w4ops)
    (by norm_num) (by norm_num) (by norm_num)
    ⟨"g", 1, w4c0, w4ops, by rfl, rfl⟩

/-- Claim C5, counterexample to the claim as stated (which quantifies
over every reward): with reward -5, one successful empty `AddBlock`
leaves the miner's balance at -5, so `GetBalance` returns a negative
value on a reachable chain. -/
theorem c5_counterexample :
    (Chain.runOps constHash cexC0 [ChainOp.addBlock [] "m" "c1" "b1" 1]).Length = 2 ∧
    Chain.GetBalance (Chain.runOps constHash cexC0 [ChainOp.addBlock [] "m" "c1" "b1" 1]) "m" < 0 :=
  ⟨by rfl, of_decide_eq_true (by rfl)⟩

/-- Instance of the C5 theorem at a concrete reachable chain. -/
theorem c5_witness :
    applyGuardedBlocks (fun _ => 0) (Chain.runOps constHash w4c0 w4ops).Blocks =
      some (Chain.runOps constHash w4c0 w4ops).balances ∧
    ∀ a, 0 ≤ Chain.GetBalance (Chain.runOps constHash w4c0 w4ops) a :=
  c5_balances_invariant constHash 1 2 (Chain.runOps constHash w4c0 w4ops)
    (by norm_num) ⟨"g", 1, w4c0, w4ops, by rfl, rfl⟩

def w6chain : Chain :=
  { Blocks := [], Difficulty := 1, MiningReward := 10,
    balances := fun a => if a = "s" then 20 else 0,
    publicKeys := fun a => if a = "s" then some 3 else none }

def w6t1 : Transaction := (Transaction.New "s" "A" 15 "t").Sign 3

def w6t2 : Transaction := (Transaction.New "s" "B" 10 "u").Sign 3

/-- Instance of the C6 theorem: two validly signed transactions of 15
and 10 from a sender holding 20 — each covered alone, rejected as a
pair. -/
theorem c6_witness :
    (Chain.validateTransactions w6chain [w6t1, w6t2] = .ok () ↔
      (simulateSpends w6chain.balances [w6t1, w6t2]).isSome = true) ∧
    (simulateSpends w6chain.balances [w6t1, w6t2] = none →
      ∃ addr has tried, has < tried ∧
        Chain.validateTransactions w6chain [w6t1, w6t2] =
          .error (.insufficientBalance addr has tried)) :=
  c6_double_spend_guard w6chain [w6t1, w6t2] (by
    intro tx htx
    simp only [List.mem_cons, List.not_mem_nil, or_false] at htx
    rcases htx with rfl | rfl
    · exact ⟨by rfl, fun _ => ⟨3, by rfl, by rfl⟩⟩
    · exact ⟨by rfl, fun _ => ⟨3, by rfl, by rfl⟩⟩)

/-- Modelled from the spec: `Chain.RebuildState` (§4.5; called by
`Node.SyncWithPeers` on every decoded peer chain, its definition absent
from the repository snapshot): rebuild the balances by replaying every
transaction of every block in order — the same replay `LoadFromFile`
performs (§4.4) — with an empty key registry. -/
def Chain.RebuildState (c : Chain) : Chain :=
  { c with balances := c.Blocks.foldl (fun bal b => applyTxs bal b.Transactions) (fun _ => 0),
           publicKeys := fun _ => none }

/-- The peer-polling loop of Go `Node.SyncWithPeers`: walk the decoded
responses in order (`none` stands for a peer whose request or decode
failed, which the Go loop skips), remembering a rebuilt candidate chain
whenever it is strictly longer than everything seen so far and fully
valid.  Returns the remembered candidate and the final maximum
length. -/
def syncLoop (H : HashInput → String) : List (Option Chain) → Nat → Option Chain → Option Chain × Nat
  | [], maxLen, best => (best, maxLen)
  | none :: rest, maxLen, best => syncLoop H rest maxLen best
  | some pc :: rest, maxLen, best =>
    if decide (maxLen < (Chain.RebuildState pc).Length) && Chain.IsValid H (Chain.RebuildState pc) then
      syncLoop H rest (Chain.RebuildState pc).Length (some (Chain.RebuildState pc))
    else syncLoop H rest maxLen best

/-- Go `Node.SyncWithPeers`, after the fire-and-forget announcements:
poll the peers, and if a strictly longer valid candidate was found,
adopt it after re-registering the node's own public key; otherwise keep
the current chain.  The boolean records whether the chain was
replaced. -/
def Node.SyncWithPeers (H : HashInput → String) (selfAddr : String) (selfKey : Nat)
    (c : Chain) (responses : List (Option Chain)) : Bool × Chain :=
  match (syncLoop H responses c.Length none).1 with
  | some best => (true, best.RegisterPublicKey selfAddr selfKey)
  | none => (false, c)

lemma rebuild_length (pc : Chain) : (Chain.RebuildState pc).Length = pc.Length := rfl

lemma syncLoop_spec (H : HashInput → String) :
    ∀ (rs : List (Option Chain)) (maxLen : Nat) (best : Option Chain),
      (∀ b, best = some b → b.Length = maxLen) →
      maxLen ≤ (syncLoop H rs maxLen best).2 ∧
      (∀ b, (syncLoop H rs maxLen best).1 = some b → b.Length = (syncLoop H rs maxLen best).2) ∧
      ((syncLoop H rs maxLen best).1 = none → (syncLoop H rs maxLen best).2 = maxLen) ∧
      (∀ pc, some pc ∈ rs → Chain.IsValid H (Chain.RebuildState pc) = true →
        pc.Length ≤ (syncLoop H rs maxLen best).2) ∧
      ((syncLoop H rs maxLen best).1.isSome = true ↔ best.isSome = true ∨
        ∃ pc, some pc ∈ rs ∧ Chain.IsValid H (Chain.RebuildState pc) = true ∧ maxLen < pc.Length)
  | [], maxLen, best, hbest => by
    refine ⟨le_refl _, ?_, ?_, ?_, ?_⟩
    · intro b hb
      exact hbest b hb
    · intro
      rfl
    · intro pc hpc
      simp at hpc
    · simp [syncLoop]
  | none :: rs, maxLen, best, hbest => by
    have IH := syncLoop_spec H rs maxLen best hbest
    obtain ⟨ih1, ih2, ih3, ih4, ih5⟩ := IH
    refine ⟨ih1, ih2, ih3, ?_, ?_⟩
    · intro pc hpc hv
      simp only [List.mem_cons] at hpc
      rcases hpc with h | h
      · exact absurd h (by simp)
      · exact ih4 pc h hv
    · rw [show syncLoop H (none :: rs) maxLen best = syncLoop H rs maxLen best from rfl]
      rw [ih5]
      constructor
      · rintro (h | ⟨pc, hm, hv, hl⟩)
        · exact Or.inl h
        · exact Or.inr ⟨pc, List.mem_cons_of_mem none hm, hv, hl⟩
      · rintro (h | ⟨pc, hm, hv, hl⟩)
        · exact Or.inl h
        · simp only [List.mem_cons] at hm
          rcases hm with h2 | h2
          · exact absurd h2 (by simp)
          · exact Or.inr ⟨pc, h2, hv, hl⟩
  | some pc :: rs, maxLen, best, hbest => by
    by_cases hcond :
        (decide (maxLen < (Chain.RebuildState pc).Length) &&
          Chain.IsValid H (Chain.RebuildState pc)) = true
    · have hstep : syncLoop H (some pc :: rs) maxLen best =
          syncLoop H rs (Chain.RebuildState pc).Length (some (Chain.RebuildState pc)) := by
        rw [syncLoop, if_pos hcond]
      simp only [Bool.and_eq_true, decide_eq_true_eq] at hcond
      obtain ⟨hlt, hval⟩ := hcond
      have IH := syncLoop_spec H rs (Chain.RebuildState pc).Length (some (Chain.RebuildState pc))
        (by intro b hb; injection hb with hb; rw [← hb])
      obtain ⟨ih1, ih2, ih3, ih4, ih5⟩ := IH
      rw [hstep]
      refine ⟨le_trans (le_of_lt hlt) ih1, ih2, ?_, ?_, ?_⟩
      · intro hnone
        have hsome := ih5.2 (Or.inl rfl)
        rw [hnone] at hsome
        simp at hsome
      · intro pc2 hm hv
        simp only [List.mem_cons] at hm
        rcases hm with h2 | h2
        · injection h2 with h2
          subst h2
          exact ih1
        · exact ih4 pc2 h2 hv
      · constructor
        · intro
          exact Or.inr ⟨pc, List.mem_cons_self _ _, hval, hlt⟩
        · intro
          rw [ih5]
          exact Or.inl rfl
    · have hstep : syncLoop H (some pc :: rs) maxLen best =
          syncLoop H rs maxLen best := by
        rw [syncLoop, if_neg hcond]
      simp only [Bool.and_eq_true, decide_eq_true_eq, not_and] at hcond
      have IH := syncLoop_spec H rs maxLen best hbest
      obtain ⟨ih1, ih2, ih3, ih4, ih5⟩ := IH
      rw [hstep]
      refine ⟨ih1, ih2, ih3, ?_, ?_⟩
      · intro pc2 hm hv
        simp only [List.mem_cons] at hm
        rcases hm with h2 | h2
        · injection h2 with h2
          subst h2
          by_cases hl : maxLen < pc2.Length
          · exact absurd (hcond (by rw [rebuild_length]; exact hl)) (by simp [hv])
          · push_neg at hl
            exact le_trans hl ih1
        · exact ih4 pc2 h2 hv
      · rw [ih5]
        constructor
        · rintro (h | ⟨pc2, hm, hv, hl⟩)
          · exact Or.inl h
          · exact Or.inr ⟨pc2, List.mem_cons_of_mem (some pc) hm, hv, hl⟩
        · rintro (h | ⟨pc2, hm, hv, hl⟩)
          · exact Or.inl h
          · simp only [List.mem_cons] at hm
            rcases hm with h2 | h2
            · injection h2 with h2
              subst h2
              exact absurd (hcond (by rw [rebuild_length]; exact hl)) (by simp [hv])
            · exact Or.inr ⟨pc2, h2, hv, hl⟩

/-- Claim C8: `SyncWithPeers` adopts a peer chain iff some decoded peer
response, after its state is rebuilt, is fully valid and strictly longer
than the current chain (a valid candidate of equal length never causes
replacement — the current chain is kept whenever nothing longer and
valid arrived); the final length is at least the prior length and at
least the length of every valid peer candidate; and the node's own key
is registered in any adopted chain. -/
theorem c8_longest_chain_sync (H : HashInput → String) (selfAddr : String) (selfKey : Nat)
    (c : Chain) (responses : List (Option Chain)) :
    ((Node.SyncWithPeers H selfAddr selfKey c responses).1 = true ↔
      ∃ pc, some pc ∈ responses ∧ Chain.IsValid H (Chain.RebuildState pc) = true ∧
        c.Length < pc.Length) ∧
    ((Node.SyncWithPeers H selfAddr selfKey c responses).1 = false →
      (Node.SyncWithPeers H selfAddr selfKey c responses).2 = c) ∧
    c.Length ≤ (Node.SyncWithPeers H selfAddr selfKey c responses).2.Length ∧
    (∀ pc, some pc ∈ responses → Chain.IsValid H (Chain.RebuildState pc) = true →
      pc.Length ≤ (Node.SyncWithPeers H selfAddr selfKey c responses).2.Length) ∧
    ((Node.SyncWithPeers H selfAddr selfKey c responses).1 = true →
      (Node.SyncWithPeers H selfAddr selfKey c responses).2.publicKeys selfAddr = some selfKey) := by
  obtain ⟨ih1, ih2, ih3, ih4, ih5⟩ :=
    syncLoop_spec H responses c.Length none (by intro b hb; exact absurd hb (by simp))
  unfold Node.SyncWithPeers
  cases hb : (syncLoop H responses c.Length none).1 with
  | none =>
    refine ⟨?_, fun _ => rfl, le_refl _, ?_, ?_⟩
    · constructor
      · intro h
        simp at h
      · intro hex
        have hsome := ih5.2 (Or.inr hex)
        rw [hb] at hsome
        simp at hsome
    · intro pc hm hv
      have h4 := ih4 pc hm hv
      rw [ih3 hb] at h4
      exact h4
    · intro h
      simp at h
  | some best =>
    have hblen := ih2 best hb
    have hcb : c.Length ≤ best.Length := by
      rw [hblen]
      exact ih1
    refine ⟨?_, ?_, hcb, ?_, ?_⟩
    · constructor
      · intro _
        have hsome : (syncLoop H responses c.Length none).1.isSome = true := by
          rw [hb]
          rfl
        rcases ih5.1 hsome with h | h
        · exact absurd h (by simp)
        · exact h
      · intro _
        rfl
    · intro h
      simp at h
    · intro pc hm hv
      have h4 := ih4 pc hm hv
      rw [← hblen] at h4
      exact h4
    · intro _
      show (if selfAddr = selfAddr then some selfKey else best.publicKeys selfAddr) = some selfKey
      rw [if_pos rfl]

lemma charToNat_injective : Function.Injective Char.toNat := by
  intro c d h
  have h1 := Char.ofNat_toNat c
  have h2 := Char.ofNat_toNat d
  rw [← h1, ← h2, h]

lemma stringData_injective : Function.Injective String.data := by
  intro s t h
  cases s
  cases t
  exact congrArg String.mk h

lemma encodeStr_injective : Function.Injective encodeStr := by
  intro s t h
  unfold encodeStr at h
  exact stringData_injective (List.map_injective_iff.2 charToNat_injective
    (Encodable.encode_injective h))

lemma str_append_right_cancel {x y r : String} (h : x ++ r = y ++ r) : x = y := by
  apply stringData_injective
  have h2 := congrArg String.data h
  rw [String.data_append, String.data_append] at h2
  exact List.append_cancel_right h2

lemma str_append_left_cancel {x y s : String} (h : s ++ x = s ++ y) : x = y := by
  apply stringData_injective
  have h2 := congrArg String.data h
  rw [String.data_append, String.data_append] at h2
  exact List.append_cancel_left h2

lemma ecdsaSigBytes_length (k : Nat) (d : String) : (ecdsaSigBytes k d).length = 64 := by
  simp [ecdsaSigBytes]

lemma ecdsaSigBytes_data_inj (k : Nat) (d1 d2 : String)
    (h : ecdsaSigBytes k d1 = ecdsaSigBytes k d2) : d1 = d2 := by
  unfold ecdsaSigBytes at h
  injection h with h1 h2
  injection h2 with h3 h4
  exact encodeStr_injective h3

lemma verify_sign (t : Transaction) (k : Nat) : (t.Sign k).Verify k = true := by
  unfold Transaction.Verify
  rw [if_neg (by rw [show (t.Sign k).Signature = ecdsaSigBytes k t.DataToSign from rfl,
        ecdsaSigBytes_length]; simp)]
  show ecdsaVerifyBytes k t.DataToSign (ecdsaSigBytes k t.DataToSign) = true
  simp [ecdsaVerifyBytes]

/-- Any transaction carrying the signature of `t` under key `k` whose
canonical data differs from that of `t` fails verification against
`k`. -/
lemma verify_mut_false (t t2 : Transaction) (k : Nat)
    (hsig : t2.Signature = ecdsaSigBytes k t.DataToSign)
    (hdata : t2.DataToSign ≠ t.DataToSign) :
    t2.Verify k = false := by
  unfold Transaction.Verify
  rw [hsig]
  rw [if_neg (by rw [ecdsaSigBytes_length]; simp)]
  unfold ecdsaVerifyBytes
  rw [beq_eq_false_iff_ne]
  intro heq
  exact hdata (ecdsaSigBytes_data_inj k _ _ heq).symm

/-- Claim C9 (amended): verification succeeds on a freshly signed
transaction; mutating from, to, or timestamp to a different value, or
the amount to a value with a different six-decimal rendering, or the
signature to different bytes, makes verification fail; but mutating the
id never changes the verdict (the id is not part of the signed data), so
verification still returns true after an id mutation. -/
theorem c9_sign_verify_mutation (k : Nat) (t : Transaction) :
    (t.Sign k).Verify k = true ∧
    (∀ x, x ≠ t.From → Transaction.Verify { t.Sign k with From := x } k = false) ∧
    (∀ x, x ≠ t.To → Transaction.Verify { t.Sign k with To := x } k = false) ∧
    (∀ x, x ≠ t.Timestamp → Transaction.Verify { t.Sign k with Timestamp := x } k = false) ∧
    (∀ q, fmtAmount q ≠ fmtAmount t.Amount →
      Transaction.Verify { t.Sign k with Amount := q } k = false) ∧
    (∀ sig, sig ≠ (t.Sign k).Signature →
      Transaction.Verify { t.Sign k with Signature := sig } k = false) ∧
    (∀ x, Transaction.Verify { t.Sign k with ID := x } k = true) := by
  refine ⟨verify_sign t k, ?_, ?_, ?_, ?_, ?_, ?_⟩
  · intro x hx
    refine verify_mut_false t _ k rfl ?_
    intro hdata
    have h2 : x ++ t.To ++ fmtAmount t.Amount ++ t.Timestamp =
        t.From ++ t.To ++ fmtAmount t.Amount ++ t.Timestamp := hdata
    exact hx (str_append_right_cancel (str_append_right_cancel (str_append_right_cancel h2)))
  · intro x hx
    refine verify_mut_false t _ k rfl ?_
    intro hdata
    have h2 : t.From ++ x ++ fmtAmount t.Amount ++ t.Timestamp =
        t.From ++ t.To ++ fmtAmount t.Amount ++ t.Timestamp := hdata
    exact hx (str_append_left_cancel (str_append_right_cancel (str_append_right_cancel h2)))
  · intro x hx
    refine verify_mut_false t _ k rfl ?_
    intro hdata
    have h2 : t.From ++ t.To ++ fmtAmount t.Amount ++ x =
        t.From ++ t.To ++ fmtAmount t.Amount ++ t.Timestamp := hdata
    exact hx (str_append_left_cancel h2)
  · intro q hq
    refine verify_mut_false t _ k rfl ?_
    intro hdata
    have h2 : t.From ++ t.To ++ fmtAmount q ++ t.Timestamp =
        t.From ++ t.To ++ fmtAmount t.Amount ++ t.Timestamp := hdata
    exact hq (str_append_left_cancel (str_append_right_cancel h2))
  · intro sig hsig
    unfold Transaction.Verify
    by_cases hlen : sig.length = 64
    · rw [if_neg (by rw [show ({ t.Sign k with Signature := sig } : Transaction).Signature.length
            = sig.length from rfl, hlen]; simp)]
      unfold ecdsaVerifyBytes
      rw [beq_eq_false_iff_ne]
      exact hsig
    · rw [if_pos (by simpa using hlen)]
  · intro x
    exact verify_sign t k

def c9t : Transaction := Transaction.New "a" "b" 1 "t"

/-- Claim C9, counterexample to the claim as stated: on a concrete
signed transaction, mutating the id leaves verification succeeding (the
id is not part of the signed data), and mutating the amount from 1 to
1 + 1/10000000 — a different value with the same six-decimal `%f`
rendering — also leaves verification succeeding. -/
theorem c9_counterexample :
    Transaction.Verify { c9t.Sign 7 with ID := "x" } 7 = true ∧
    (1 + 1/10000000 : Rat) ≠ (1 : Rat) ∧
    fmtAmount (1 + 1/10000000) = fmtAmount (1 : Rat) ∧
    Transaction.Verify { c9t.Sign 7 with Amount := 1 + 1/10000000 } 7 = true :=
  ⟨by rfl, of_decide_eq_true (by rfl), by rfl, by rfl⟩

/-- A Go runtime panic, modelled as an explicit error value. -/
inductive GoPanic where
  | nilPointerDereference
deriving DecidableEq

/-- The `X`/`Y` pointer fields of a Go `ecdsa.PublicKey`; `Option Int`
models `*big.Int` with `none` for the nil pointer. -/
structure EcdsaPublicKeyPtrs where
  X : Option Int
  Y : Option Int

/-- Go `new(ecdsa.PublicKey)`: both big-int fields are nil. -/
def newEcdsaPublicKey : EcdsaPublicKeyPtrs := { X := none, Y := none }

/-- Go `(*big.Int).SetBytes`: writes through the receiver, so a nil
receiver dereferences nil and panics; otherwise the big-endian value of
the bytes. -/
def bigIntSetBytes : Option Int → List Nat → Except GoPanic Int
  | none, _ => .error .nilPointerDereference
  | some _, bytes => .ok (Int.ofNat (bytes.foldl (fun acc b => acc * 256 + b) 0))

/-- Go `wallet.VerifySignature` (pkg/wallet): hash the data, reject
signatures whose length is not 64, then r := `new(ecdsa.PublicKey).X`,
s := `new(ecdsa.PublicKey).Y`, `r.SetBytes`, `s.SetBytes`, and the
library verification — kept abstract as `verifyRS`, since the call is
never reached. -/
def VerifySignature (verifyRS : Nat → String → Int → Int → Bool)
    (publicKey : Nat) (data : String) (signature : List Nat) : Except GoPanic Bool :=
  if signature.length ≠ 64 then .ok false
  else
    match bigIntSetBytes newEcdsaPublicKey.X (signature.take 32) with
    | .error p => .error p
    | .ok r =>
      match bigIntSetBytes newEcdsaPublicKey.Y (signature.drop 32) with
      | .error p => .error p
      | .ok s => .ok (verifyRS publicKey data r s)

/-- Claim C10: for every public key, message, and 64-byte signature,
`wallet.VerifySignature` calls `SetBytes` on the nil `X` of
`new(ecdsa.PublicKey)` and panics instead of returning a verdict;
signatures of any other length return false; so wallet-level
verification can never return true. -/
theorem c10_wallet_verify_panics (verifyRS : Nat → String → Int → Int → Bool)
    (publicKey : Nat) (data : String) (signature : List Nat) :
    (signature.length = 64 →
      VerifySignature verifyRS publicKey data signature = .error .nilPointerDereference) ∧
    (signature.length ≠ 64 →
      VerifySignature verifyRS publicKey data signature = .ok false) ∧
    VerifySignature verifyRS publicKey data signature ≠ .ok true := by
  unfold VerifySignature
  by_cases hlen : signature.length = 64
  · rw [if_neg (by simpa using hlen)]
    exact ⟨fun _ => rfl, fun h => absurd hlen h,
      by simp [newEcdsaPublicKey, bigIntSetBytes]⟩
  · rw [if_pos (by simpa using hlen)]
    exact ⟨fun h => absurd h hlen, fun _ => rfl, by simp⟩

/-- A JSON document, as far as the persistence layer needs it. -/
inductive Json where
  | str (s : String)
  | num (q : Rat)
  | arr (elems : List Json)
  | obj (fields : List (String × Json))

def hexDigitChar (n : Nat) : Char :=
  if n < 10 then Char.ofNat (48 + n) else Char.ofNat (87 + n)

/-- Go `hex.EncodeToString`: two lowercase hex characters per byte. -/
def hexEncode (bytes : List Nat) : String :=
  String.mk (bytes.foldr
    (fun b acc => hexDigitChar (b / 16 % 16) :: hexDigitChar (b % 16) :: acc) [])

/-- The value of one character of the standard base64 alphabet. -/
def b64Val (c : Char) : Option Nat :=
  if 65 ≤ c.toNat ∧ c.toNat ≤ 90 then some (c.toNat - 65)
  else if 97 ≤ c.toNat ∧ c.toNat ≤ 122 then some (c.toNat - 97 + 26)
  else if 48 ≤ c.toNat ∧ c.toNat ≤ 57 then some (c.toNat - 48 + 52)
  else if c = '+' then some 62
  else if c = '/' then some 63
  else none

/-- RFC 4648 standard base64 decoding (padded), which is what Go
`encoding/json` applies to a JSON string decoded into a `[]byte`
field. -/
def base64DecodeChars : List Char → Option (List Nat)
  | [] => some []
  | [c1, c2, '=', '='] =>
    match b64Val c1, b64Val c2 with
    | some v1, some v2 => if v2 % 16 = 0 then some [v1 * 4 + v2 / 16] else none
    | _, _ => none
  | [c1, c2, c3, '='] =>
    match b64Val c1, b64Val c2, b64Val c3 with
    | some v1, some v2, some v3 =>
      if v3 % 4 = 0 then some [v1 * 4 + v2 / 16, v2 % 16 * 16 + v3 / 4] else none
    | _, _, _ => none
  | c1 :: c2 :: c3 :: c4 :: rest =>
    match b64Val c1, b64Val c2, b64Val c3, b64Val c4, base64DecodeChars rest with
    | some v1, some v2, some v3, some v4, some bs =>
      some ((v1 * 4 + v2 / 16) :: (v2 % 16 * 16 + v3 / 4) :: (v3 % 4 * 64 + v4) :: bs)
    | _, _, _, _, _ => none
  | _ => none

def base64Decode (s : String) : Option (List Nat) :=
  base64DecodeChars s.data

def jsonField : List (String × Json) → String → Option Json
  | [], _ => none
  | (k, v) :: rest, key => if k = key then some v else jsonField rest key

def jsonLookup : Json → String → Option Json
  | .obj fields, key => jsonField fields key
  | _, _ => none

def asStr : Option Json → Option String
  | some (.str s) => some s
  | _ => none

def asNum : Option Json → Option Rat
  | some (.num q) => some q
  | _ => none

def asNat (j : Option Json) : Option Nat :=
  match asNum j with
  | some q => if q.den = 1 ∧ 0 ≤ q.num then some q.num.toNat else none
  | none => none

def asArr : Option Json → Option (List Json)
  | some (.arr xs) => some xs
  | _ => none

/-- Go `Transaction.MarshalJSON`: the timestamp as its RFC3339Nano
string, the signature HEX-encoded, the remaining fields as-is. -/
def Transaction.MarshalJSON (tx : Transaction) : Json :=
  .obj [("timestamp", .str tx.Timestamp), ("signature", .str (hexEncode tx.Signature)),
        ("id", .str tx.ID), ("from", .str tx.From), ("to", .str tx.To),
        ("amount", .num tx.Amount)]

/-- Go default `json.Unmarshal` into a `Transaction`: the package
defines no custom UnmarshalJSON, so the `signature` string is decoded
by the `[]byte` convention of encoding/json — BASE64, not hex. -/
def Transaction.UnmarshalJSON (j : Json) : Option Transaction :=
  match asStr (jsonLookup j "id"), asStr (jsonLookup j "from"), asStr (jsonLookup j "to"),
      asNum (jsonLookup j "amount"), asStr (jsonLookup j "timestamp"),
      asStr (jsonLookup j "signature") with
  | some id, some fr, some toA, some amt, some ts, some sigStr =>
    match base64Decode sigStr with
    | some sig => some { ID := id, From := fr, To := toA, Amount := amt,
                         Timestamp := ts, Signature := sig }
    | none => none
  | _, _, _, _, _, _ => none

/-- Modelled from the spec: the block JSON of §6 — index, RFC3339Nano
timestamp string, transaction array, previous_hash, hash, nonce (the
transactions-carrying block package is absent from the snapshot). -/
def Block.MarshalJSON (b : Block) : Json :=
  .obj [("timestamp", .str b.Timestamp), ("index", .num (b.Index : Rat)),
        ("transactions", .arr (b.Transactions.map Transaction.MarshalJSON)),
        ("previous_hash", .str b.PreviousHash), ("hash", .str b.Hash),
        ("nonce", .num (b.Nonce : Rat))]

/-- Modelled from the spec: default unmarshal of the block document of
§6 into a `Block`. -/
def Block.UnmarshalJSON (j : Json) : Option Block :=
  match asNat (jsonLookup j "index"), asStr (jsonLookup j "timestamp"),
      asArr (jsonLookup j "transactions"), asStr (jsonLookup j "previous_hash"),
      asStr (jsonLookup j "hash"), asNat (jsonLookup j "nonce") with
  | some idx, some ts, some txsJ, some ph, some h, some non =>
    match txsJ.mapM Transaction.UnmarshalJSON with
    | some txs => some { Index := idx, Timestamp := ts, Transactions := txs,
                         PreviousHash := ph, Hash := h, Nonce := non }
    | none => none
  | _, _, _, _, _, _ => none

/-- Go `Chain.SaveToFile`: the marshalled chain document — blocks,
difficulty, mining_reward; balances and public keys are not
serialized. -/
def Chain.SaveToFile (c : Chain) : Json :=
  .obj [("blocks", .arr (c.Blocks.map Block.MarshalJSON)),
        ("difficulty", .num (c.Difficulty : Rat)),
        ("mining_reward", .num c.MiningReward)]

/-- Go `chain.LoadFromFile`: unmarshal the chain document, then rebuild
the balances by replaying every transaction of every block in order;
the key registry starts empty. -/
def Chain.LoadFromFile (j : Json) : Option Chain :=
  match asArr (jsonLookup j "blocks"), asNat (jsonLookup j "difficulty"),
      asNum (jsonLookup j "mining_reward") with
  | some blocksJ, some d, some r =>
    match blocksJ.mapM Block.UnmarshalJSON with
    | some blocks => some
        { Blocks := blocks, Difficulty := d, MiningReward := r,
          balances := blocks.foldl (fun bal b => applyTxs bal b.Transactions) (fun _ => 0),
          publicKeys := fun _ => none }
    | none => none
  | _, _, _ => none

/-- A chain whose second block carries one transaction with a 64-byte
signature (all zero bytes). -/
def c3tx : Transaction :=
  { ID := "i", From := "a", To := "b", Amount := 5, Timestamp := "t",
    Signature := List.replicate 64 0 }

def c3block1 : Block :=
  { Index := 1, Timestamp := "u", Transactions := [c3tx],
    PreviousHash := "0h", Hash := "1h", Nonce := 0 }

def c3chain : Chain :=
  { Blocks := [{ Index := 0, Timestamp := "g", Transactions := [],
                 PreviousHash := "0", Hash := "0h", Nonce := 0 }, c3block1],
    Difficulty := 1, MiningReward := 3,
    balances := fun a => if a = "b" then 5 else if a = "a" then -5 else 0,
    publicKeys := fun _ => none }

def c3loaded : Chain :=
  (Chain.LoadFromFile (Chain.SaveToFile c3chain)).getD cexJunk

/-- Claim C3 fails on the code: saving writes each signature as a
128-character hex string, but loading (with no custom UnmarshalJSON)
decodes that string as base64, yielding 96 bytes of garbage.  The
round trip completes without error, yet the loaded blocks differ from
the saved ones: the 64-byte signature comes back as 96 bytes. -/
theorem c3_roundtrip_corrupts_signature :
    Chain.LoadFromFile (Chain.SaveToFile c3chain) = some c3loaded ∧
    c3loaded.Blocks ≠ c3chain.Blocks ∧
    ((c3loaded.Blocks.getLastD c3block1).Transactions.getLastD c3tx).Signature.length = 96 ∧
    ((c3chain.Blocks.getLastD c3block1).Transactions.getLastD c3tx).Signature.length = 64 :=
  ⟨by rfl, of_decide_eq_true (by rfl), by rfl, by rfl⟩
